import Mathlib

/-!
# Verification of `cloudstorage2bq`

A shallow embedding of `src/cloudstorage2bq/__main__.py`, which copies files
from a cloud object store into a data warehouse: one dataset per discovered
sub-path, one table per file, asynchronous load jobs polled to completion.

The embedding covers:
* the identifier sanitizer `re.sub(r"[^a-zA-Z0-9_]", "_", s)`;
* `os.path.basename` and the root part of `os.path.splitext` (posixpath
  semantics, including the leading-dot rule);
* the per-file table-name derivation with its leading-letter assertion
  (`assert table_name[0].isalpha()`), including the out-of-bounds access on
  an empty name;
* the submit/skip loop of `load_prefix_to_dataset` against the table-catalog
  snapshot, with its log lines;
* the polling `while` loop, including Python's remove-while-iterating
  semantics of `jobs.remove(load_job)` inside `for load_job in jobs`;
* the dataset get-or-create; and the dataset-name derivation of
  `load_all_datasets`.
-/

set_option autoImplicit false

namespace CloudStorage2BQ

/-- A character admitted by the character class `[a-zA-Z0-9_]` of the
substitution in `load_prefix_to_dataset` (and `load_all_datasets`):
ASCII letters, ASCII digits, underscore. -/
def isValidIdentChar (c : Char) : Bool :=
  c.isAlpha || c.isDigit || c == '_'

/-- `re.sub(r"[^a-zA-Z0-9_]", "_", ·)` on the character list: the pattern
matches single characters, so the scan replaces each character outside the
class with an underscore and keeps the rest. -/
def sanitizeChars : List Char → List Char
  | [] => []
  | c :: cs => (if isValidIdentChar c then c else '_') :: sanitizeChars cs

/-- `re.sub(r"[^a-zA-Z0-9_]", "_", s)` on strings. -/
def sanitize (s : String) : String :=
  String.mk (sanitizeChars s.data)

/-- `os.path.basename` (posixpath): the part of the path after the last
`'/'`; empty when the path ends in `'/'`. -/
def basename (p : String) : String :=
  String.mk ((p.data.reverse.takeWhile (fun c => c ≠ '/')).reverse)

/-- Index of the last occurrence of `c` in `l` (`str.rfind`), `none` when
absent. -/
def rfindIdx (c : Char) : List Char → Option Nat
  | [] => none
  | x :: xs =>
    match rfindIdx c xs with
    | some i => some (i + 1)
    | none => if x = c then some 0 else none

/-- The root component of `os.path.splitext p` (posixpath `_splitext` with
`sep = '/'`, `extsep = '.'`): split at the last dot when it lies after the
last separator and some character of the final component strictly before it
is not a dot; otherwise (in particular for names that are all leading dots,
such as `".parquet"`) the whole path is the root. -/
def splitextRoot (p : String) : String :=
  let l := p.data
  match rfindIdx '.' l with
  | none => p
  | some dot =>
    let sep := rfindIdx '/' l
    let start : Nat := match sep with | none => 0 | some s => s + 1
    let dotAfterSep : Bool := match sep with | none => true | some s => decide (s < dot)
    if dotAfterSep && ((l.drop start).take (dot - start)).any (fun c => c ≠ '.') then
      String.mk (l.take dot)
    else p

/-- The two ways the per-file name derivation can abort the run:
`table_name[0]` on an empty string raises `IndexError`; the
`assert table_name[0].isalpha()` raises the invalid-identifier
`AssertionError`. -/
inductive Err where
  | indexError
  | invalidIdentifier
deriving DecidableEq

/-- Sanitize a base name and apply the leading-letter precondition of
`load_prefix_to_dataset`: after substitution, indexing `[0]` fails on an
empty string, the assertion fails when the first character is not a letter,
and otherwise the sanitized name passes through. -/
def tableNameCheck (s : String) : Except Err String :=
  let t := sanitize s
  match t.data with
  | [] => .error .indexError
  | c :: _ => if c.isAlpha then .ok t else .error .invalidIdentifier

/-- The table identifier derived from one file URI, as in the body of the
`for file in files` loop: base name, extension removed, sanitized, checked,
and only then prefixed with `table_name_prefix`. -/
def tableNameOf (pfx file : String) : Except Err String :=
  (tableNameCheck (splitextRoot (basename file))).map (fun t => pfx ++ t)

example : sanitize "1_bad file!" = "1_bad_file_" := by decide
example : basename "gs://b/raw/orders/2024.parquet" = "2024.parquet" := by decide
example : splitextRoot "2024.parquet" = "2024" := by decide
example : splitextRoot ".parquet" = ".parquet" := by decide
example : splitextRoot "a.b.c" = "a.b" := by decide
example : splitextRoot "..a.b" = "..a" := by decide
example : splitextRoot "..." = "..." := by decide
example : basename "gs://b/folder/" = "" := by decide
example : tableNameOf "" "gs://b/x.parquet" = .ok "x" := rfl
example : tableNameOf "p_" "gs://b/x.csv" = .ok "p_x" := rfl
example : tableNameOf "" "gs://b/.parquet" = .error .invalidIdentifier := rfl
example : tableNameOf "" "gs://b/folder/" = .error .indexError := rfl
example : tableNameOf "t_" "gs://b/1x.parquet" = .error .invalidIdentifier := rfl

/-- `str.rstrip("/")`: remove every trailing `'/'`. Used by
`load_all_datasets` on each discovered common prefix. -/
def rstripSlash (s : String) : String :=
  String.mk ((s.data.reverse.dropWhile (fun c => c = '/')).reverse)

/-- The dataset identifier `load_all_datasets` derives from a discovered
common prefix: trailing slashes removed, then the same character
substitution as for table names; no leading-letter assertion is applied. -/
def datasetNameOf (p : String) : String :=
  sanitize (rstripSlash p)

example : datasetNameOf "raw/orders/" = "raw_orders" := by decide
example : datasetNameOf "123/" = "123" := by decide

/-- Failures the warehouse API can return; only `notFound` is ever caught
by the program. -/
inductive ApiError where
  | notFound
  | permissionDenied
  | quotaExceeded
  | networkError
deriving DecidableEq

/-- A dataset as the warehouse client sees it: the reference it was built
from plus optional settings. `bigquery.Dataset(dataset_ref)` sets only the
reference and leaves every setting at its default. -/
structure DatasetSpec where
  ref : String
  location : Option String := none
  description : Option String := none
deriving DecidableEq

/-- The `try get_dataset / except NotFound: create_dataset` block of
`load_prefix_to_dataset`: `get` is the outcome of `client.get_dataset`,
`create` the behaviour of `client.create_dataset` on the dataset it is
handed. Only `NotFound` is caught; the dataset then created is
`bigquery.Dataset(dataset_ref)`, i.e. the reference with default
settings. -/
def ensureDataset (ref : String) (get : Except ApiError DatasetSpec)
    (create : DatasetSpec → Except ApiError DatasetSpec) :
    Except ApiError DatasetSpec :=
  match get with
  | .ok d => .ok d
  | .error .notFound => create { ref := ref }
  | .error e => .error e

/-- The log lines the submit/skip loop of `load_prefix_to_dataset` emits
per file: `processing file …`, the bare sanitized name, `table … already
exists, skipping load`, and `Started load job for … into …`. -/
inductive LogEvent where
  | processing (file : String)
  | sanitized (name : String)
  | skip (name : String)
  | started (file : String) (dataset : String) (name : String)
deriving DecidableEq

/-- The `for file in files` loop of `load_prefix_to_dataset`: per file it
logs, derives the table name, asserts the leading letter, prepends
`table_name_prefix`, skips when the name is in the catalog snapshot taken
before the loop, and otherwise submits a load job. Returns the emitted log
lines together with the submitted destination table names, or the error
that aborted the run (logs up to the abort are still returned). -/
def loadFiles (catalog : List String) (datasetName pfx : String) :
    List String → List LogEvent × Except Err (List String)
  | [] => ([], .ok [])
  | f :: fs =>
    let t := sanitize (splitextRoot (basename f))
    match t.data with
    | [] => ([.processing f, .sanitized t], .error .indexError)
    | c :: _ =>
      if c.isAlpha then
        let name := pfx ++ t
        let rest := loadFiles catalog datasetName pfx fs
        if name ∈ catalog then
          (.processing f :: .sanitized t :: .skip name :: rest.1, rest.2)
        else
          (.processing f :: .sanitized t :: .started f datasetName name :: rest.1,
           match rest.2 with
           | .error e => .error e
           | .ok jobs => .ok (name :: jobs))
      else ([.processing f, .sanitized t], .error .invalidIdentifier)

example :
    (loadFiles [] "d" "" ["gs://b/x.parquet", "gs://b/x.csv"]).2 = .ok ["x", "x"] := rfl
example :
    (loadFiles ["x"] "d" "" ["gs://b/x.parquet"]).2 = .ok [] := rfl

/-- `list.remove x` (Python): delete the first element equal to `x`. In the
poll loop it is only called with an element just read from the list. -/
def removeFirst {α : Type} [DecidableEq α] (a : α) : List α → List α
  | [] => []
  | x :: xs => if x = a then xs else x :: removeFirst a xs

/-- One pass of `for load_job in jobs: … jobs.remove(load_job)` with
Python's iterator semantics: the iterator keeps advancing its index over
the list being mutated, so removing the current element skips the next
one. `k` is the iterator index, `fuel` bounds the number of yields (the
initial list length suffices, since the index grows by one per yield and
the list never grows). Returns the remaining list and the jobs processed
(result retrieved, logged, removed) during the pass. -/
def forPassAux {α : Type} [DecidableEq α] (isDone : α → Bool) :
    Nat → Nat → List α → List α × List α
  | 0, _, l => (l, [])
  | fuel + 1, k, l =>
    if h : k < l.length then
      if isDone (l.get ⟨k, h⟩) then
        let r := forPassAux isDone fuel (k + 1) (removeFirst (l.get ⟨k, h⟩) l)
        (r.1, l.get ⟨k, h⟩ :: r.2)
      else forPassAux isDone fuel (k + 1) l
    else (l, [])

/-- One full pass of the inner `for` loop, started at index 0 with enough
fuel to reach the end of the list. -/
def forPassRun {α : Type} [DecidableEq α] (isDone : α → Bool) (l : List α) :
    List α × List α :=
  forPassAux isDone l.length 0 l

/-- A submitted load job: an identity and the round at which the external
warehouse service first reports it `done()` (`none`: it never completes). -/
structure Job where
  id : Nat
  doneAt : Option Nat
deriving DecidableEq

/-- Whether a job reports completion when polled at round `t`. -/
def jobDone (t : Nat) (j : Job) : Bool :=
  match j.doneAt with
  | none => false
  | some d => decide (d ≤ t)

/-- The outstanding-job list before round `t` of the `while not done`
polling loop: round `t` runs one full pass of the inner `for` loop with
the completion statuses of round `t`. -/
def pollState (jobs : List Job) : Nat → List Job
  | 0 => jobs
  | t + 1 => (forPassRun (jobDone t) (pollState jobs t)).1

/-- The jobs whose terminal result round `t` retrieves (and removes). -/
def processedAt (jobs : List Job) (t : Nat) : List Job :=
  (forPassRun (jobDone t) (pollState jobs t)).2

example : pollState [⟨0, some 0⟩, ⟨1, some 0⟩, ⟨2, some 1⟩] 1 = [⟨1, some 0⟩, ⟨2, some 1⟩] := by decide
example : pollState [⟨0, some 0⟩, ⟨1, some 0⟩, ⟨2, some 1⟩] 2 = [⟨2, some 1⟩] := by decide
example : pollState [⟨0, some 0⟩, ⟨1, some 0⟩, ⟨2, some 1⟩] 3 = [] := by decide
example : pollState [⟨0, none⟩, ⟨1, some 0⟩] 5 = [⟨0, none⟩] := by decide

/-! ## Sanitizer lemmas -/

lemma sanitizeChars_mem_valid (l : List Char) :
    ∀ c ∈ sanitizeChars l, isValidIdentChar c = true := by
  induction l with
  | nil => intro c hc; cases hc
  | cons x xs ih =>
    intro c hc
    rcases List.mem_cons.mp hc with h | h
    · subst h
      by_cases hx : isValidIdentChar x = true
      · rw [if_pos hx]; exact hx
      · rw [if_neg hx]; decide
    · exact ih c h

lemma sanitizeChars_get? (l : List Char) :
    ∀ i : Nat, (sanitizeChars l).get? i =
      (l.get? i).map (fun c => if isValidIdentChar c then c else '_') := by
  induction l with
  | nil => intro i; simp [sanitizeChars]
  | cons x xs ih =>
    intro i
    cases i with
    | zero => rfl
    | succ n => simpa [sanitizeChars] using ih n

lemma sanitizeChars_eq_self (l : List Char)
    (h : ∀ c ∈ l, isValidIdentChar c = true) : sanitizeChars l = l := by
  induction l with
  | nil => rfl
  | cons x xs ih =>
    have hx := h x (List.mem_cons_self x xs)
    simp only [sanitizeChars, if_pos hx]
    rw [ih fun c hc => h c (List.mem_cons_of_mem x hc)]

lemma sanitizeChars_idem (l : List Char) :
    sanitizeChars (sanitizeChars l) = sanitizeChars l :=
  sanitizeChars_eq_self _ (sanitizeChars_mem_valid l)

/-- C5: for every input string the sanitizer's output contains only
letters, digits and underscore, and position by position a character in
that set is kept in place while any character outside it is replaced by an
underscore. -/
theorem sanitizer_output_charset (s : String) :
    (∀ c ∈ (sanitize s).data, isValidIdentChar c = true) ∧
    ∀ i : Nat, (sanitize s).data.get? i =
      (s.data.get? i).map (fun c => if isValidIdentChar c then c else '_') :=
  ⟨sanitizeChars_mem_valid s.data, sanitizeChars_get? s.data⟩

theorem sanitizer_output_charset_witness :
    isValidIdentChar '_' = true ∧
    (sanitize "a b!").data.get? 1 = some '_' ∧
    (sanitize "a b!").data.get? 0 = some 'a' :=
  ⟨(sanitizer_output_charset "a b!").1 '_' (by decide),
   ((sanitizer_output_charset "a b!").2 1).trans (by decide),
   ((sanitizer_output_charset "a b!").2 0).trans (by decide)⟩

/-- C6: the sanitizer is idempotent — an input made of letters, digits and
underscores is returned unchanged, and applying the sanitizer twice equals
applying it once. -/
theorem sanitizer_idempotent :
    (∀ s : String, (∀ c ∈ s.data, isValidIdentChar c = true) → sanitize s = s) ∧
    ∀ s : String, sanitize (sanitize s) = sanitize s := by
  constructor
  · intro s h
    show String.mk (sanitizeChars s.data) = s
    rw [sanitizeChars_eq_self s.data h]
  · intro s
    show String.mk (sanitizeChars (sanitizeChars s.data)) = String.mk (sanitizeChars s.data)
    rw [sanitizeChars_idem s.data]

theorem sanitizer_idempotent_witness :
    sanitize "abc_123" = "abc_123" ∧ sanitize (sanitize "a b!") = sanitize "a b!" :=
  ⟨sanitizer_idempotent.1 "abc_123" (by decide), sanitizer_idempotent.2 "a b!"⟩

/-! ## Leading-letter check -/

lemma tableNameCheck_of_head (s : String) (c : Char) (cs : List Char)
    (h : (sanitize s).data = c :: cs) :
    tableNameCheck s =
      if c.isAlpha then .ok (sanitize s) else .error .invalidIdentifier := by
  have hm : tableNameCheck s =
      match (sanitize s).data with
      | [] => .error .indexError
      | c :: _ => if c.isAlpha then .ok (sanitize s) else .error .invalidIdentifier := rfl
  rw [hm, h]

lemma head?_eq_cons {l : List Char} {c : Char} (h : l.head? = some c) :
    ∃ cs, l = c :: cs := by
  cases l with
  | nil => cases h
  | cons x xs =>
    simp only [List.head?] at h
    exact ⟨xs, by rw [Option.some_inj.mp h]⟩

/-- C3: after substitution, the invalid-identifier precondition failure is
raised if and only if the first character of the substituted result is not
a letter; a letter-leading result passes the check unchanged. -/
theorem leading_letter_check_iff (s : String) (c : Char)
    (h : (sanitize s).data.head? = some c) :
    (tableNameCheck s = .error .invalidIdentifier ↔ c.isAlpha = false) ∧
    (c.isAlpha = true → tableNameCheck s = .ok (sanitize s)) := by
  obtain ⟨cs, hd⟩ := head?_eq_cons h
  rw [tableNameCheck_of_head s c cs hd]
  cases hc : c.isAlpha <;> simp [hc]

theorem leading_letter_check_iff_witness :
    tableNameCheck "2024" = .error .invalidIdentifier ∧
    tableNameCheck "orders" = .ok "orders" := by
  constructor
  · exact (leading_letter_check_iff "2024" '2' (by decide)).1.mpr (by decide)
  · exact ((leading_letter_check_iff "orders" 'o' (by decide)).2 (by decide)).trans
      (congrArg Except.ok (by decide))

/-- C9 counterexample: an object named exactly `.parquet` does not have an
empty base name — posixpath `splitext` keeps leading dots in the root, so
the base name is `.parquet` itself — and the check fails with the
invalid-identifier assertion, not the out-of-bounds access. -/
theorem dot_parquet_not_empty_base :
    splitextRoot (basename "gs://b/.parquet") = ".parquet" ∧
    splitextRoot (basename "gs://b/.parquet") ≠ "" ∧
    tableNameOf "" "gs://b/.parquet" = .error .invalidIdentifier ∧
    Err.invalidIdentifier ≠ Err.indexError :=
  ⟨by decide, by decide, rfl, by decide⟩

/-- C9 (amended): for an object whose base name with extension removed is
empty — such as a blob name ending in `/`, whose basename is empty — the
leading-letter check fails with the out-of-bounds index access on
`table_name[0]`, not the documented invalid-identifier assertion. -/
theorem empty_base_name_index_error (pfx file : String)
    (h : splitextRoot (basename file) = "") :
    tableNameOf pfx file = .error .indexError := by
  unfold tableNameOf
  rw [h]
  rfl

theorem empty_base_name_index_error_witness :
    splitextRoot (basename "gs://b/folder/") = "" ∧
    tableNameOf "t_" "gs://b/folder/" = .error .indexError :=
  ⟨by decide, empty_base_name_index_error "t_" "gs://b/folder/" (by decide)⟩

/-- C10: the leading-letter assertion applies to the sanitized base name
before `table_name_prefix` is prepended — a non-letter-leading base name
aborts whatever the prefix is, and a letter-leading base name yields the
prefixed identifier with no further check on the prefixed result. -/
theorem check_precedes_prefixing (pfx file : String) (c : Char)
    (h : (sanitize (splitextRoot (basename file))).data.head? = some c) :
    (c.isAlpha = false → tableNameOf pfx file = .error .invalidIdentifier) ∧
    (c.isAlpha = true →
      tableNameOf pfx file = .ok (pfx ++ sanitize (splitextRoot (basename file)))) := by
  obtain ⟨cs, hd⟩ := head?_eq_cons h
  unfold tableNameOf
  rw [tableNameCheck_of_head _ c cs hd]
  cases hc : c.isAlpha <;> simp [hc, Except.map]

theorem check_precedes_prefixing_witness :
    tableNameOf "t_" "gs://b/1x.parquet" = .error .invalidIdentifier ∧
    tableNameOf "1_" "gs://b/a.parquet" = .ok "1_a" := by
  constructor
  · exact (check_precedes_prefixing "t_" "gs://b/1x.parquet" '1' (by decide)).1 (by decide)
  · exact ((check_precedes_prefixing "1_" "gs://b/a.parquet" 'a' (by decide)).2
      (by decide)).trans (congrArg Except.ok (by decide))

/-- C8: the dataset identifier for a discovered sub-path is obtained by
removing trailing slashes and substituting every character outside
letters/digits/underscore — `raw/orders/` becomes `raw_orders` — and no
leading-letter check is applied: a digit-leading prefix such as `123/`
yields the identifier `123` with no failure. -/
theorem dataset_name_derivation :
    datasetNameOf "raw/orders/" = "raw_orders" ∧
    (∀ p : String, datasetNameOf p = sanitize (rstripSlash p)) ∧
    (∀ p : String, ∀ c ∈ (datasetNameOf p).data, isValidIdentChar c = true) ∧
    datasetNameOf "123/" = "123" :=
  ⟨by decide, fun _ => rfl, fun p => sanitizeChars_mem_valid (rstripSlash p).data,
   by decide⟩

theorem dataset_name_derivation_witness :
    isValidIdentChar 'r' = true ∧ datasetNameOf "raw/orders/" = "raw_orders" :=
  ⟨dataset_name_derivation.2.2.1 "raw/orders/" 'r' (by decide),
   dataset_name_derivation.1⟩

/-- C7: the dataset ensurer is a get-or-create with exactly one recovered
error — a fetched dataset is returned as is, a not-found failure is
answered by creating the dataset reference with default settings, and any
other failure propagates unchanged. -/
theorem ensure_dataset_get_or_create (ref : String)
    (get : Except ApiError DatasetSpec)
    (create : DatasetSpec → Except ApiError DatasetSpec) :
    (∀ d, get = .ok d → ensureDataset ref get create = .ok d) ∧
    (get = .error .notFound →
      ensureDataset ref get create =
        create { ref := ref, location := none, description := none }) ∧
    (∀ e, get = .error e → e ≠ ApiError.notFound →
      ensureDataset ref get create = .error e) := by
  refine ⟨?_, ?_, ?_⟩
  · intro d hd; subst hd; rfl
  · intro hnf; subst hnf; rfl
  · intro e he hne; subst he
    cases e
    · exact absurd rfl hne
    · rfl
    · rfl
    · rfl

theorem ensure_dataset_get_or_create_witness :
    ensureDataset "ds" (.error .notFound) (fun d => .ok d) =
      .ok { ref := "ds", location := none, description := none } ∧
    ensureDataset "ds" (.error .networkError) (fun d => .ok d) =
      .error .networkError :=
  ⟨(ensure_dataset_get_or_create "ds" (.error .notFound) (fun d => .ok d)).2.1 rfl,
   (ensure_dataset_get_or_create "ds" (.error .networkError) (fun d => .ok d)).2.2
     .networkError rfl (by decide)⟩

/-! ## Submit/skip loop lemmas -/

lemma loadFiles_cons_match (catalog : List String) (d pfx f : String) (fs : List String) :
    loadFiles catalog d pfx (f :: fs) =
      match (sanitize (splitextRoot (basename f))).data with
      | [] => ([.processing f, .sanitized (sanitize (splitextRoot (basename f)))],
               .error .indexError)
      | c :: _ =>
        if c.isAlpha then
          if (pfx ++ sanitize (splitextRoot (basename f))) ∈ catalog then
            (.processing f :: .sanitized (sanitize (splitextRoot (basename f))) ::
               .skip (pfx ++ sanitize (splitextRoot (basename f))) ::
               (loadFiles catalog d pfx fs).1,
             (loadFiles catalog d pfx fs).2)
          else
            (.processing f :: .sanitized (sanitize (splitextRoot (basename f))) ::
               .started f d (pfx ++ sanitize (splitextRoot (basename f))) ::
               (loadFiles catalog d pfx fs).1,
             match (loadFiles catalog d pfx fs).2 with
             | .error e => .error e
             | .ok jobs => .ok ((pfx ++ sanitize (splitextRoot (basename f))) :: jobs))
        else ([.processing f, .sanitized (sanitize (splitextRoot (basename f)))],
              .error .invalidIdentifier) := rfl

lemma loadFiles_cons_nil (catalog : List String) (d pfx f : String) (fs : List String)
    (hd : (sanitize (splitextRoot (basename f))).data = []) :
    loadFiles catalog d pfx (f :: fs) =
      ([.processing f, .sanitized (sanitize (splitextRoot (basename f)))],
       .error .indexError) := by
  rw [loadFiles_cons_match, hd]

lemma loadFiles_cons_invalid (catalog : List String) (d pfx f : String) (fs : List String)
    (c : Char) (cs : List Char)
    (hd : (sanitize (splitextRoot (basename f))).data = c :: cs)
    (hc : c.isAlpha = false) :
    loadFiles catalog d pfx (f :: fs) =
      ([.processing f, .sanitized (sanitize (splitextRoot (basename f)))],
       .error .invalidIdentifier) := by
  rw [loadFiles_cons_match, hd]
  simp [hc]

lemma loadFiles_cons_skip (catalog : List String) (d pfx f : String) (fs : List String)
    (c : Char) (cs : List Char)
    (hd : (sanitize (splitextRoot (basename f))).data = c :: cs)
    (hc : c.isAlpha = true)
    (hmem : (pfx ++ sanitize (splitextRoot (basename f))) ∈ catalog) :
    loadFiles catalog d pfx (f :: fs) =
      (.processing f :: .sanitized (sanitize (splitextRoot (basename f))) ::
         .skip (pfx ++ sanitize (splitextRoot (basename f))) ::
         (loadFiles catalog d pfx fs).1,
       (loadFiles catalog d pfx fs).2) := by
  rw [loadFiles_cons_match, hd]
  simp [hc, hmem]

lemma loadFiles_cons_start (catalog : List String) (d pfx f : String) (fs : List String)
    (c : Char) (cs : List Char)
    (hd : (sanitize (splitextRoot (basename f))).data = c :: cs)
    (hc : c.isAlpha = true)
    (hmem : (pfx ++ sanitize (splitextRoot (basename f))) ∉ catalog) :
    loadFiles catalog d pfx (f :: fs) =
      (.processing f :: .sanitized (sanitize (splitextRoot (basename f))) ::
         .started f d (pfx ++ sanitize (splitextRoot (basename f))) ::
         (loadFiles catalog d pfx fs).1,
       match (loadFiles catalog d pfx fs).2 with
       | .error e => .error e
       | .ok jobs => .ok ((pfx ++ sanitize (splitextRoot (basename f))) :: jobs)) := by
  rw [loadFiles_cons_match, hd]
  simp [hc, hmem]

lemma tableNameCheck_of_nil (s : String)
    (hd : (sanitize s).data = []) : tableNameCheck s = .error .indexError := by
  have hm : tableNameCheck s =
      match (sanitize s).data with
      | [] => .error .indexError
      | c :: _ => if c.isAlpha then .ok (sanitize s) else .error .invalidIdentifier := rfl
  rw [hm, hd]

lemma tableNameOf_ok_inv (pfx f name : String)
    (h : tableNameOf pfx f = .ok name) :
    ∃ c cs, (sanitize (splitextRoot (basename f))).data = c :: cs ∧
      c.isAlpha = true ∧ name = pfx ++ sanitize (splitextRoot (basename f)) := by
  unfold tableNameOf at h
  cases hd : (sanitize (splitextRoot (basename f))).data with
  | nil =>
    rw [tableNameCheck_of_nil _ hd] at h
    cases h
  | cons c cs =>
    rw [tableNameCheck_of_head _ c cs hd] at h
    cases hc : c.isAlpha with
    | false => rw [if_neg (by simp [hc])] at h; cases h
    | true =>
      rw [if_pos hc] at h
      simp only [Except.map, Except.ok.injEq] at h
      exact ⟨c, cs, rfl, hc, h.symm⟩

lemma loadFiles_ok_not_catalog (catalog : List String) (d pfx : String) :
    ∀ files jobs : List String,
      (loadFiles catalog d pfx files).2 = .ok jobs →
      ∀ name ∈ jobs, name ∉ catalog := by
  intro files
  induction files with
  | nil =>
    intro jobs hr name hn hcat
    simp only [loadFiles] at hr
    cases hr
    cases hn
  | cons g gs ih =>
    intro jobs hr name hn hcat
    cases hd : (sanitize (splitextRoot (basename g))).data with
    | nil =>
      rw [loadFiles_cons_nil catalog d pfx g gs hd] at hr
      cases hr
    | cons c cs =>
      cases hc : c.isAlpha with
      | false =>
        rw [loadFiles_cons_invalid catalog d pfx g gs c cs hd hc] at hr
        cases hr
      | true =>
        by_cases hmem : (pfx ++ sanitize (splitextRoot (basename g))) ∈ catalog
        · rw [loadFiles_cons_skip catalog d pfx g gs c cs hd hc hmem] at hr
          exact ih jobs hr name hn hcat
        · rw [loadFiles_cons_start catalog d pfx g gs c cs hd hc hmem] at hr
          cases hrest : (loadFiles catalog d pfx gs).2 with
          | error e => rw [hrest] at hr; cases hr
          | ok jobs' =>
            rw [hrest] at hr
            simp only at hr
            cases hr
            rcases List.mem_cons.mp hn with hname | hname
            · exact hmem (hname ▸ hcat)
            · exact ih jobs' hrest name hname hcat

lemma loadFiles_no_started (catalog : List String) (d pfx f name : String)
    (hok : tableNameOf pfx f = .ok name) (hcat : name ∈ catalog) :
    ∀ (files : List String) (n : String),
      LogEvent.started f d n ∉ (loadFiles catalog d pfx files).1 := by
  intro files
  induction files with
  | nil => intro n hn; cases hn
  | cons g gs ih =>
    intro n hn
    cases hd : (sanitize (splitextRoot (basename g))).data with
    | nil =>
      rw [loadFiles_cons_nil catalog d pfx g gs hd] at hn
      rcases List.mem_cons.mp hn with h | h
      · cases h
      · rcases List.mem_cons.mp h with h' | h'
        · cases h'
        · cases h'
    | cons c cs =>
      cases hc : c.isAlpha with
      | false =>
        rw [loadFiles_cons_invalid catalog d pfx g gs c cs hd hc] at hn
        rcases List.mem_cons.mp hn with h | h
        · cases h
        · rcases List.mem_cons.mp h with h' | h'
          · cases h'
          · cases h'
      | true =>
        by_cases hmem : (pfx ++ sanitize (splitextRoot (basename g))) ∈ catalog
        · rw [loadFiles_cons_skip catalog d pfx g gs c cs hd hc hmem] at hn
          rcases List.mem_cons.mp hn with h | h
          · cases h
          rcases List.mem_cons.mp h with h' | h'
          · cases h'
          rcases List.mem_cons.mp h' with h'' | h''
          · cases h''
          exact ih n h''
        · rw [loadFiles_cons_start catalog d pfx g gs c cs hd hc hmem] at hn
          rcases List.mem_cons.mp hn with h | h
          · cases h
          rcases List.mem_cons.mp h with h' | h'
          · cases h'
          rcases List.mem_cons.mp h' with h'' | h''
          · -- the started event would have to be for `f` itself, but then the
            -- derived identifier is in the catalog, contradicting the branch
            have hf : f = g := (LogEvent.started.injEq _ _ _ _ _ _).mp h'' |>.1
            obtain ⟨c', cs', hd', hc', hname⟩ := tableNameOf_ok_inv pfx f name hok
            exact hmem (hf ▸ hname ▸ hcat)
          exact ih n h''

lemma loadFiles_skip_mem (catalog : List String) (d pfx f name : String)
    (hok : tableNameOf pfx f = .ok name) (hcat : name ∈ catalog) :
    ∀ files jobs : List String,
      f ∈ files → (loadFiles catalog d pfx files).2 = .ok jobs →
      LogEvent.skip name ∈ (loadFiles catalog d pfx files).1 := by
  intro files
  induction files with
  | nil => intro jobs hf; cases hf
  | cons g gs ih =>
    intro jobs hf hr
    rcases List.mem_cons.mp hf with hfg | hfs
    · subst hfg
      obtain ⟨c, cs, hd, hc, hname⟩ := tableNameOf_ok_inv pfx f name hok
      rw [loadFiles_cons_skip catalog d pfx f gs c cs hd hc (hname ▸ hcat)]
      rw [hname]
      simp
    · cases hd : (sanitize (splitextRoot (basename g))).data with
      | nil =>
        rw [loadFiles_cons_nil catalog d pfx g gs hd] at hr
        cases hr
      | cons c cs =>
        cases hc : c.isAlpha with
        | false =>
          rw [loadFiles_cons_invalid catalog d pfx g gs c cs hd hc] at hr
          cases hr
        | true =>
          by_cases hmem : (pfx ++ sanitize (splitextRoot (basename g))) ∈ catalog
          · rw [loadFiles_cons_skip catalog d pfx g gs c cs hd hc hmem] at hr ⊢
            exact List.mem_cons_of_mem _ (List.mem_cons_of_mem _
              (List.mem_cons_of_mem _ (ih jobs hfs hr)))
          · rw [loadFiles_cons_start catalog d pfx g gs c cs hd hc hmem] at hr ⊢
            cases hrest : (loadFiles catalog d pfx gs).2 with
            | error e => rw [hrest] at hr; cases hr
            | ok jobs' =>
              exact List.mem_cons_of_mem _ (List.mem_cons_of_mem _
                (List.mem_cons_of_mem _ (ih jobs' hfs hrest)))

/-- C4: in a completed run, every object whose derived table identifier is
in the catalog snapshot is skipped — a skip log line for the identifier is
emitted, the identifier is not among the submitted jobs, and no started-job
log line exists for that object. -/
theorem skip_law (catalog : List String) (d pfx : String) (files : List String)
    (f name : String) (jobs : List String)
    (hf : f ∈ files)
    (hok : tableNameOf pfx f = .ok name)
    (hcat : name ∈ catalog)
    (hrun : (loadFiles catalog d pfx files).2 = .ok jobs) :
    LogEvent.skip name ∈ (loadFiles catalog d pfx files).1 ∧
    name ∉ jobs ∧
    ∀ n, LogEvent.started f d n ∉ (loadFiles catalog d pfx files).1 := by
  refine ⟨loadFiles_skip_mem catalog d pfx f name hok hcat files jobs hf hrun, ?_,
    loadFiles_no_started catalog d pfx f name hok hcat files⟩
  intro hmem
  exact loadFiles_ok_not_catalog catalog d pfx files jobs hrun name hmem hcat

theorem skip_law_witness :
    LogEvent.skip "x" ∈ (loadFiles ["x"] "d" "" ["gs://b/x.parquet"]).1 ∧
    "x" ∉ ([] : List String) ∧
    ∀ n, LogEvent.started "gs://b/x.parquet" "d" n ∉
      (loadFiles ["x"] "d" "" ["gs://b/x.parquet"]).1 :=
  skip_law ["x"] "d" "" ["gs://b/x.parquet"] "gs://b/x.parquet" "x" []
    (by simp) rfl (by simp) rfl

/-- C1 counterexample: with an empty catalog snapshot, the distinct objects
`x.parquet` and `x.csv` both derive the table identifier `x`, and the run
submits two load jobs with that same identifier — the snapshot is not
updated as jobs are submitted, so within-run duplicates are not prevented. -/
theorem duplicate_identifier_submission :
    (loadFiles [] "d" "" ["gs://b/x.parquet", "gs://b/x.csv"]).2 = .ok ["x", "x"] ∧
    "gs://b/x.parquet" ≠ "gs://b/x.csv" ∧
    ¬ (["x", "x"] : List String).Nodup :=
  ⟨rfl, by decide, by decide⟩

/-- C1 (amended): in a completed run no load job is submitted for an
identifier present in the catalog snapshot; distinct objects mapping to the
same identifier, however, each submit a load job, so submitted identifiers
need not be pairwise distinct. -/
theorem submitted_jobs_not_in_catalog (catalog : List String) (d pfx : String)
    (files jobs : List String)
    (hrun : (loadFiles catalog d pfx files).2 = .ok jobs) :
    ∀ name ∈ jobs, name ∉ catalog :=
  loadFiles_ok_not_catalog catalog d pfx files jobs hrun

theorem submitted_jobs_not_in_catalog_witness :
    "a" ∉ ["t"] ∧ (loadFiles ["t"] "d" "" ["gs://b/a.parquet"]).2 = .ok ["a"] :=
  ⟨submitted_jobs_not_in_catalog ["t"] "d" "" ["gs://b/a.parquet"] ["a"] rfl "a" (by simp),
   rfl⟩

/-! ## Poll loop lemmas -/

section PollLoop

variable {α : Type} [DecidableEq α]

lemma removeFirst_length {a : α} {l : List α} (h : a ∈ l) :
    (removeFirst a l).length + 1 = l.length := by
  induction l with
  | nil => cases h
  | cons x xs ih =>
    by_cases hx : x = a
    · simp [removeFirst, hx]
    · rcases List.mem_cons.mp h with h' | h'
      · exact absurd h'.symm hx
      · simp only [removeFirst, if_neg hx, List.length_cons]
        have := ih h'
        omega

lemma mem_removeFirst_of_ne {a x : α} {l : List α} (h : x ∈ l) (hne : x ≠ a) :
    x ∈ removeFirst a l := by
  induction l with
  | nil => cases h
  | cons y ys ih =>
    simp only [removeFirst]
    by_cases hy : y = a
    · rw [if_pos hy]
      rcases List.mem_cons.mp h with h' | h'
      · exact absurd (h'.trans hy) hne
      · exact h'
    · rw [if_neg hy]
      rcases List.mem_cons.mp h with h' | h'
      · rw [h']; exact List.mem_cons_self _ _
      · exact List.mem_cons_of_mem _ (ih h')

lemma perm_cons_removeFirst {a : α} {l : List α} (h : a ∈ l) :
    l.Perm (a :: removeFirst a l) := by
  induction l with
  | nil => cases h
  | cons x xs ih =>
    by_cases hx : x = a
    · subst hx; simp [removeFirst]
    · simp only [removeFirst, if_neg hx]
      rcases List.mem_cons.mp h with h' | h'
      · exact absurd h'.symm hx
      · exact ((ih h').cons x).trans (List.Perm.swap a x _)

lemma forPassAux_perm (isDone : α → Bool) :
    ∀ (fuel k : Nat) (l : List α),
      l.Perm ((forPassAux isDone fuel k l).1 ++ (forPassAux isDone fuel k l).2) := by
  intro fuel
  induction fuel with
  | zero => intro k l; simp [forPassAux]
  | succ n ih =>
    intro k l
    by_cases h : k < l.length
    · simp only [forPassAux, dif_pos h]
      by_cases hd : isDone (l.get ⟨k, h⟩) = true
      · rw [if_pos hd]
        have hj : l.get ⟨k, h⟩ ∈ l := List.get_mem l k h
        have h1 := perm_cons_removeFirst hj
        have h2 := ih (k + 1) (removeFirst (l.get ⟨k, h⟩) l)
        exact h1.trans ((h2.cons _).trans List.perm_middle.symm)
      · rw [if_neg hd]; exact ih (k + 1) l
    · simp [forPassAux, dif_neg h]

lemma forPassAux_processed_done (isDone : α → Bool) :
    ∀ (fuel k : Nat) (l : List α) (j : α),
      j ∈ (forPassAux isDone fuel k l).2 → isDone j = true := by
  intro fuel
  induction fuel with
  | zero => intro k l j hj; simp [forPassAux] at hj
  | succ n ih =>
    intro k l j hj
    by_cases h : k < l.length
    · simp only [forPassAux, dif_pos h] at hj
      by_cases hd : isDone (l.get ⟨k, h⟩) = true
      · rw [if_pos hd] at hj
        rcases List.mem_cons.mp hj with h' | h'
        · rw [h']; exact hd
        · exact ih (k + 1) _ j h'
      · rw [if_neg hd] at hj
        exact ih (k + 1) l j hj
    · simp [forPassAux, dif_neg h] at hj

lemma forPassAux_mem_not_done (isDone : α → Bool) :
    ∀ (fuel k : Nat) (l : List α) (j : α), j ∈ l → isDone j = false →
      j ∈ (forPassAux isDone fuel k l).1 := by
  intro fuel
  induction fuel with
  | zero => intro k l j hj hnd; simpa [forPassAux] using hj
  | succ n ih =>
    intro k l j hj hnd
    by_cases h : k < l.length
    · simp only [forPassAux, dif_pos h]
      by_cases hd : isDone (l.get ⟨k, h⟩) = true
      · rw [if_pos hd]
        refine ih (k + 1) _ j (mem_removeFirst_of_ne hj ?_) hnd
        intro he
        rw [he, hd] at hnd
        cases hnd
      · rw [if_neg hd]; exact ih (k + 1) l j hj hnd
    · simpa [forPassAux, dif_neg h] using hj

lemma forPassAux_processed_ne_nil (isDone : α → Bool) :
    ∀ (fuel k : Nat) (l : List α),
      (∃ j ∈ l.drop k, isDone j = true) → l.length ≤ k + fuel →
      (forPassAux isDone fuel k l).2 ≠ [] := by
  intro fuel
  induction fuel with
  | zero =>
    intro k l hex hlen
    rw [List.drop_eq_nil_of_le (by omega)] at hex
    simp at hex
  | succ n ih =>
    intro k l hex hlen
    by_cases h : k < l.length
    · simp only [forPassAux, dif_pos h]
      by_cases hd : isDone (l.get ⟨k, h⟩) = true
      · rw [if_pos hd]; simp
      · rw [if_neg hd]
        refine ih (k + 1) l ?_ (by omega)
        obtain ⟨j, hjmem, hjdone⟩ := hex
        rw [List.drop_eq_getElem_cons h] at hjmem
        rcases List.mem_cons.mp hjmem with h' | h'
        · rw [h'] at hjdone
          exact absurd hjdone hd
        · exact ⟨j, h', hjdone⟩
    · exfalso
      rw [List.drop_eq_nil_of_le (by omega)] at hex
      simp at hex

lemma forPassRun_perm (isDone : α → Bool) (l : List α) :
    l.Perm ((forPassRun isDone l).1 ++ (forPassRun isDone l).2) :=
  forPassAux_perm isDone l.length 0 l

lemma forPassRun_length_lt (isDone : α → Bool) (l : List α)
    (hex : ∃ j ∈ l, isDone j = true) :
    (forPassRun isDone l).1.length < l.length := by
  have hperm := forPassRun_perm isDone l
  have hne : (forPassRun isDone l).2 ≠ [] := by
    refine forPassAux_processed_ne_nil isDone l.length 0 l ?_ (by omega)
    simpa using hex
  have hlen := hperm.length_eq
  rw [List.length_append] at hlen
  have hpos : 0 < (forPassRun isDone l).2.length := List.length_pos.mpr hne
  omega

lemma forPassRun_subset (isDone : α → Bool) (l : List α) :
    ∀ j ∈ (forPassRun isDone l).1, j ∈ l := by
  intro j hj
  exact (forPassRun_perm isDone l).mem_iff.mpr (List.mem_append_left _ hj)

end PollLoop

lemma pollState_mem_subset (jobs : List Job) :
    ∀ t, ∀ j ∈ pollState jobs t, j ∈ jobs := by
  intro t
  induction t with
  | zero => intro j hj; exact hj
  | succ n ih =>
    intro j hj
    exact ih j (forPassRun_subset (jobDone n) (pollState jobs n) j hj)

lemma pollState_never_done (jobs : List Job) (j : Job) (hj : j ∈ jobs)
    (hn : j.doneAt = none) : ∀ t, j ∈ pollState jobs t := by
  intro t
  induction t with
  | zero => exact hj
  | succ n ih =>
    refine forPassAux_mem_not_done (jobDone n) _ 0 _ j ih ?_
    simp [jobDone, hn]

lemma exists_done_bound (jobs : List Job) (h : ∀ j ∈ jobs, j.doneAt ≠ none) :
    ∃ D : Nat, ∀ j ∈ jobs, ∀ t, D ≤ t → jobDone t j = true := by
  induction jobs with
  | nil => exact ⟨0, by simp⟩
  | cons x xs ih =>
    obtain ⟨D', hD'⟩ := ih fun j hj => h j (List.mem_cons_of_mem x hj)
    cases hx : x.doneAt with
    | none => exact absurd hx (h x (List.mem_cons_self x xs))
    | some d =>
      refine ⟨max d D', ?_⟩
      intro j hj t ht
      rcases List.mem_cons.mp hj with h' | h'
      · have hdt : d ≤ t := le_trans (le_max_left d D') ht
        rw [h']
        simp [jobDone, hx, hdt]
      · exact hD' j h' t (le_trans (le_max_right d D') ht)

lemma pollState_terminates (jobs : List Job) (h : ∀ j ∈ jobs, j.doneAt ≠ none) :
    ∃ t, pollState jobs t = [] := by
  obtain ⟨D, hD⟩ := exists_done_bound jobs h
  suffices H : ∀ n t, D ≤ t → (pollState jobs t).length ≤ n →
      ∃ t', pollState jobs t' = [] by
    exact H (pollState jobs D).length D le_rfl le_rfl
  intro n
  induction n with
  | zero =>
    intro t ht hlen
    exact ⟨t, List.length_eq_zero.mp (Nat.le_zero.mp hlen)⟩
  | succ n ih =>
    intro t ht hlen
    cases hs : pollState jobs t with
    | nil => exact ⟨t, hs⟩
    | cons j js =>
      have hne : pollState jobs t ≠ [] := by rw [hs]; simp
      obtain ⟨j0, hj0⟩ := List.exists_mem_of_ne_nil _ hne
      have hdone : jobDone t j0 = true :=
        hD j0 (pollState_mem_subset jobs t j0 hj0) t ht
      have hlt : (pollState jobs (t + 1)).length < (pollState jobs t).length :=
        forPassRun_length_lt (jobDone t) (pollState jobs t) ⟨j0, hj0, hdone⟩
      exact ih (t + 1) (by omega) (by omega)

/-- C2: the outstanding-job list strictly shrinks on every polling round
that observes at least one completed job; the loop terminates — the
outstanding list eventually becomes empty — exactly when every submitted
job eventually reports completion; and each round splits the outstanding
list into the jobs still outstanding and the completed jobs whose terminal
result it retrieved and whose handles it removed. -/
theorem poll_loop_law (jobs : List Job) :
    (∀ t, (∃ j ∈ pollState jobs t, jobDone t j = true) →
      (pollState jobs (t + 1)).length < (pollState jobs t).length) ∧
    ((∃ t, pollState jobs t = []) ↔ ∀ j ∈ jobs, j.doneAt ≠ none) ∧
    (∀ t, (pollState jobs t).Perm (pollState jobs (t + 1) ++ processedAt jobs t) ∧
      ∀ j ∈ processedAt jobs t, jobDone t j = true) := by
  refine ⟨?_, ⟨?_, pollState_terminates jobs⟩, ?_⟩
  · intro t hex
    exact forPassRun_length_lt (jobDone t) (pollState jobs t) hex
  · rintro ⟨t, ht⟩ j hj hnone
    have hmem := pollState_never_done jobs j hj hnone t
    rw [ht] at hmem
    cases hmem
  · intro t
    exact ⟨forPassRun_perm (jobDone t) (pollState jobs t),
      fun j hj => forPassAux_processed_done (jobDone t) _ 0 _ j hj⟩

theorem poll_loop_law_witness :
    (pollState [⟨0, some 1⟩, ⟨1, some 0⟩] 2).length <
      (pollState [⟨0, some 1⟩, ⟨1, some 0⟩] 1).length ∧
    ∃ t, pollState [⟨0, some 1⟩, ⟨1, some 0⟩] t = [] :=
  ⟨(poll_loop_law [⟨0, some 1⟩, ⟨1, some 0⟩]).1 1 (by decide),
   (poll_loop_law [⟨0, some 1⟩, ⟨1, some 0⟩]).2.1.mpr (by decide)⟩

end CloudStorage2BQ
